import Mathlib

/-!
Verification of flask_activerecord, a thin ActiveRecord-style layer over
flask_sqlalchemy.  We give a shallow embedding of the pure logic of the
module (the filter-to-predicate translator, the loader-option projector,
the recursive model-to-dict serializer, the batch-argument normalization,
the mass-assignment helper, and the session-facing methods) and prove the
specified properties about it.
-/

set_option maxHeartbeats 1000000

/-- Runtime values handled by the library: the simple JSON-able Python
values together with the list, tuple and set containers that the filter
translator distinguishes. -/
inductive PyVal where
  | none
  | int (n : Int)
  | str (s : String)
  | bool (b : Bool)
  | list (vs : List PyVal)
  | tuple (vs : List PyVal)
  | set (vs : List PyVal)

/-- Exceptions raised by the embedded code: ValueError and KeyError from the
library itself, the generic Exception of find_in_batches, and database-level
failures propagated from the wrapped ORM. -/
inductive PyError where
  | valueError (msg : String)
  | keyError (key : String)
  | exception (msg : String)
  | dbError (msg : String)

/-- SQLAlchemy filter conditions produced by the where-clause builder.  A
condition is either one of the raw criteria expressions passed through, or a
comparison built from a column or relationship attribute. -/
inductive Cond where
  | raw (idx : Nat)
  | eq (col : String) (v : PyVal)
  | inList (col : String) (vs : List PyVal)
  | between (col : String) (lo hi : PyVal)
  | relEq (rel : String) (v : PyVal)
  | relIn (rel : String) (vs : List PyVal)

/-- Loader options produced by the select projector: defer for a column kept
out of the query output, eagerload for a requested relationship. -/
inductive LoaderOption where
  | defer (col : String)
  | eagerload (rel : String)
deriving DecidableEq

/-- Mapper metadata of a model class: its name, column attribute keys,
primary-key column keys, relationship keys, and the three attribute filters
read from the class attribute of filters (hidden, protected, accessible). -/
structure Model where
  name : String
  columns : List String
  primaryKeys : List String
  relations : List String
  hidden : List String
  protectedAttrs : List String
  accessible : List String

/-! Association-list helpers modelling Python dict assignment and lookup. -/

def alookup {α : Type} : List (String × α) → String → Option α
  | [], _ => Option.none
  | (k, v) :: rest, key => if k == key then some v else alookup rest key

def containsKey {α : Type} (l : List (String × α)) (key : String) : Bool :=
  (alookup l key).isSome

/-- Python dict assignment: replace the value of an existing key in place,
otherwise append the new binding at the end (insertion order). -/
def aset {α : Type} : List (String × α) → String → α → List (String × α)
  | [], key, v => [(key, v)]
  | (k, w) :: rest, key, v =>
    if k == key then (k, v) :: rest else (k, w) :: aset rest key v

/-! Embedding of the where-clause builder.

Source (flask_activerecord.py, _where_clause): raw criteria are collected
first; then for each keyword filter naming a relationship an equality or IN
condition is appended; then for each keyword filter naming a column, a tuple
value must have exactly two elements and yields a BETWEEN over the
reordered pair, an empty list raises ValueError, a singleton (or a plain
value wrapped into a singleton) yields an equality, and any other list
yields an IN condition.  Python iterates over unordered set intersections;
we iterate the keyword filters in their given order, which fixes one of the
admissible orders and affects none of the stated properties. -/

/-- Comparison used by the min and max calls on a 2-tuple of simple values
(int or string in this embedding). -/
def pyLt : PyVal → PyVal → Bool
  | .int a, .int b => a < b
  | .str a, .str b => a < b
  | _, _ => false

/-- Python min over a 2-tuple: the first element unless the second is
strictly smaller. -/
def pyMin2 (a b : PyVal) : PyVal := if pyLt b a then b else a

/-- Python max over a 2-tuple: the first element unless the second is
strictly larger. -/
def pyMax2 (a b : PyVal) : PyVal := if pyLt a b then b else a

/-- Condition generated for a keyword filter naming a relationship. -/
def relFilterCond (key : String) (v : PyVal) : Cond :=
  match v with
  | .list [x] => .relEq key x
  | .list xs => .relIn key xs
  | w => .relEq key w

/-- Condition generated for a keyword filter naming a column, or the
ValueError the source raises on a malformed tuple or an empty list. -/
def colFilterCond (modelName key : String) (v : PyVal) : Except PyError Cond :=
  match v with
  | .tuple vs =>
    match vs with
    | [a, b] => .ok (.between key (pyMin2 a b) (pyMax2 a b))
    | _ => .error (.valueError
        ("Expected tuple of size 2 generate BETWEEN expression for column "
          ++ modelName ++ "." ++ key))
  | .list [] => .error (.valueError
      ("Expected non-empty list to generate IN expression for column "
        ++ modelName ++ "." ++ key))
  | .list [x] => .ok (.eq key x)
  | .list xs => .ok (.inList key xs)
  | w => .ok (.eq key w)

/-- Except-valued map over a list, stopping at the first raised error, as the
exception aborts the Python loop. -/
def mapMExcept {α β : Type} (f : α → Except PyError β) : List α → Except PyError (List β)
  | [] => .ok []
  | a :: rest =>
    match f a with
    | .error e => .error e
    | .ok b =>
      match mapMExcept f rest with
      | .error e => .error e
      | .ok bs => .ok (b :: bs)

def _where_clause (model : Model) (criteria : List Cond)
    (filters : List (String × PyVal)) : Except PyError (List Cond) :=
  let relConds := (filters.filter (fun kv => model.relations.contains kv.1)).map
    (fun kv => relFilterCond kv.1 kv.2)
  let colFilters := filters.filter (fun kv => model.columns.contains kv.1)
  match mapMExcept (fun kv => colFilterCond model.name kv.1 kv.2) colFilters with
  | .error e => .error e
  | .ok colConds => .ok (criteria ++ relConds ++ colConds)

/-! Embedding of the select projector.

Source (_select_options): when fields are given they are united with the
primary keys; otherwise all columns are taken.  Every column outside that
set is deferred, every relationship inside it is eager-loaded. -/

def _select_options (model : Model) (fields : List String) : List LoaderOption :=
  let fs := if fields.isEmpty then model.columns else fields ++ model.primaryKeys
  (model.columns.filter (fun k => !(fs.contains k))).map LoaderOption.defer
    ++ (model.relations.filter (fun k => fs.contains k)).map LoaderOption.eagerload

/-! Concrete mapper metadata used by the closed-instance theorems, shaped
like the User and Todo models of the test suite. -/

def userModel : Model :=
  { name := "User", columns := ["id", "email", "password", "name"],
    primaryKeys := ["id"], relations := ["todos"],
    hidden := ["password"], protectedAttrs := ["id"], accessible := [] }

def todoModel : Model :=
  { name := "Todo", columns := ["tid", "title"], primaryKeys := ["tid"],
    relations := [], hidden := [], protectedAttrs := [], accessible := [] }

/-! Embedding of the model-to-dict serializer.

Source (_model_to_dict): a single requested field string is split on commas
and stripped; requested fields that name no column make the field set
default to all columns plus the requested names; fields outside the columns
are matched against relationships (a dotted field addresses an attribute of
a related model, and a dotted field whose prefix is no relationship raises
KeyError); primary keys are always added to the serialized columns; hidden
attributes are skipped; relationship values are serialized recursively with
the restricted field list. -/

/-- First-dot split of a field name, modelling the index and slicing calls
of the source on the character list of the string. -/
def splitDotChars : List Char → Option (List Char × List Char)
  | [] => Option.none
  | c :: rest =>
    if c = '.' then some ([], rest)
    else
      match splitDotChars rest with
      | some (a, b) => some (c :: a, b)
      | Option.none => Option.none

def splitDot (k : String) : Option (String × String) :=
  match splitDotChars k.toList with
  | some (a, b) => some (String.mk a, String.mk b)
  | Option.none => Option.none

/-- Comma split of a field string, modelling the split call of the source. -/
def splitComma : List Char → List (List Char)
  | [] => [[]]
  | c :: rest =>
    match splitComma rest with
    | [] => [[]]
    | g :: gs => if c = ',' then [] :: g :: gs else (c :: g) :: gs

/-- Python strip: drop whitespace from both ends. -/
def trimChars (l : List Char) : List Char :=
  ((l.dropWhile Char.isWhitespace).reverse.dropWhile Char.isWhitespace).reverse

/-- A single field argument is split on commas and stripped; several field
arguments are taken as given. -/
def normalizeFields : List String → List String
  | [f] => (splitComma f.toList).map (fun cs => String.mk (trimChars cs))
  | fs => fs

/-- Keep the first occurrence of each element; Python iterates sets, which
hold each distinct field once. -/
def dedupFirst : List String → List String
  | [] => []
  | x :: xs => x :: (dedupFirst xs).filter (fun y => y != x)

/-- JSON output values of the serializer. -/
inductive JVal where
  | null
  | int (n : Int)
  | str (s : String)
  | bool (b : Bool)
  | arr (l : List JVal)
  | obj (l : List (String × JVal))

mutual
/-- json_value on the embedded values: simple values pass through, the
containers become JSON arrays of converted elements.  (Dates, dicts and
objects with a to_dict method fall outside this value model.) -/
def json_value : PyVal → JVal
  | .none => .null
  | .int n => .int n
  | .str s => .str s
  | .bool b => .bool b
  | .list vs => .arr (jsonList vs)
  | .tuple vs => .arr (jsonList vs)
  | .set vs => .arr (jsonList vs)

def jsonList : List PyVal → List JVal
  | [] => []
  | v :: rest => json_value v :: jsonList rest
end

mutual
/-- Value of a relationship attribute on a model instance: a single related
instance, a related collection, or None. -/
inductive RelVal where
  | one (m : MInst)
  | many (ms : List MInst)
  | none

/-- A model instance: its mapper metadata, its column attribute values and
its relationship attribute values. -/
inductive MInst where
  | mk (cls : Model) (cols : List (String × PyVal)) (rels : List (String × RelVal))
end

def MInst.cls : MInst → Model
  | .mk c _ _ => c

def MInst.colAttrs : MInst → List (String × PyVal)
  | .mk _ cols _ => cols

def MInst.relAttrs : MInst → List (String × RelVal)
  | .mk _ _ rels => rels

/-- getattr for a column attribute; an unset mapped column is None. -/
def MInst.getCol (m : MInst) (k : String) : PyVal :=
  (alookup m.colAttrs k).getD .none

/-- getattr for a relationship attribute; an unset relationship is None. -/
def MInst.getRel (m : MInst) (k : String) : RelVal :=
  (alookup m.relAttrs k).getD .none

theorem sizeOf_alookup_lt {α : Type} [SizeOf α] {l : List (String × α)}
    {k : String} {v : α} (h : alookup l k = some v) : sizeOf v < sizeOf l := by
  induction l with
  | nil => simp [alookup] at h
  | cons hd tl ih =>
    obtain ⟨a, b⟩ := hd
    simp only [alookup] at h
    by_cases hab : (a == k) = true
    · simp [hab] at h
      subst h
      simp only [List.cons.sizeOf_spec, Prod.mk.sizeOf_spec]
      omega
    · simp [hab] at h
      have := ih h
      simp only [List.cons.sizeOf_spec, Prod.mk.sizeOf_spec]
      omega

theorem sizeOf_getRel_lt (m : MInst) (k : String) : sizeOf (m.getRel k) < sizeOf m := by
  obtain ⟨cls, cols, rels⟩ := m
  simp only [MInst.getRel, MInst.relAttrs]
  cases h : alookup rels k with
  | none =>
    simp only [Option.getD, MInst.mk.sizeOf_spec]
    have : sizeOf (RelVal.none) = 1 := rfl
    obtain ⟨n, c, p, r, hi, pr, ac⟩ := cls
    simp only [Model.mk.sizeOf_spec]
    omega
  | some v =>
    have := sizeOf_alookup_lt h
    simp only [Option.getD, MInst.mk.sizeOf_spec]
    omega

/-- The related-field map and the final column attribute list computed once
per serializer call from the metadata of the first model. -/
structure DictPlan where
  modelAttrs : List String
  relatedMap : List (String × List String)

/-- Build the related-field map from the non-column fields: a dotted field
contributes its attribute suffix under its relationship prefix (raising
KeyError when the prefix is no relationship), a bare relationship name
contributes an empty restriction, and any other non-column field is
silently dropped. -/
def buildRelatedMapAux (relations : List String) :
    List String → List (String × List String) →
    Except PyError (List (String × List String))
  | [], rm => .ok rm
  | k :: rest, rm =>
    match splitDot k with
    | some (mdl, attr) =>
      let rm1 := if relations.contains mdl && !(containsKey rm mdl)
                 then rm ++ [(mdl, [])] else rm
      match alookup rm1 mdl with
      | some lst => buildRelatedMapAux relations rest (aset rm1 mdl (lst ++ [attr]))
      | Option.none => .error (.keyError mdl)
    | Option.none =>
      if relations.contains k then buildRelatedMapAux relations rest (aset rm k [])
      else buildRelatedMapAux relations rest rm

def buildRelatedMap (relations relatedAttr : List String) :
    Except PyError (List (String × List String)) :=
  buildRelatedMapAux relations relatedAttr []

/-- Field preprocessing of the serializer: default the fields to all columns
when none of them is a column, split them into column attributes and
related attributes, build the related map, return early when nothing is to
be serialized, and finally add the primary keys to the column attributes. -/
def effectiveFields (cls : Model) (fields0 : List String) : List String :=
  if (fields0.filter (fun k => cls.columns.contains k)).isEmpty
  then cls.columns ++ fields0 else fields0

def mkPlan (cls : Model) (fields0 _exclude : List String) :
    Except PyError (Option DictPlan) :=
  let model_attr := cls.columns
  let fields := effectiveFields cls fields0
  let related_attr := dedupFirst (fields.filter (fun k => !(model_attr.contains k)))
  match buildRelatedMap cls.relations related_attr with
  | .error e => .error e
  | .ok related_map =>
    let new_model_attr := fields.filter
      (fun k => model_attr.contains k && !(_exclude.contains k))
    if new_model_attr.isEmpty && related_map.isEmpty then .ok Option.none
    else .ok (some ⟨new_model_attr
        ++ cls.primaryKeys.filter (fun k => !(new_model_attr.contains k)),
      related_map⟩)

/-- Column-attribute loop of the serializer: skip hidden attributes, convert
every other value with json_value. -/
def buildCols (attrs : List String) (m : MInst) : List (String × JVal) :=
  attrs.foldl
    (fun data k =>
      if m.cls.hidden.contains k then data
      else aset data k (json_value (m.getCol k)))
    []

/-- Extra-props loop of the serializer.  (Callable props, which the source
applies to the model, are outside this value model.) -/
def applyProps (d props : List (String × JVal)) : List (String × JVal) :=
  props.foldl (fun acc kv => aset acc kv.1 kv.2) d

mutual
/-- The recursive serializer.  None and the empty collection terminate
early; otherwise the plan is computed from the first model and every model
is serialized into a dict of its visible columns, its recursively
serialized relationships and the extra props. -/
def _model_to_dict (models : RelVal) (fields _exclude : List String)
    (props : List (String × JVal)) : Except PyError JVal :=
  match models with
  | .none => .ok (.obj [])
  | .many [] => .ok (.arr [])
  | .one m =>
    match mkPlan m.cls (normalizeFields fields) _exclude with
    | .error e => .error e
    | .ok Option.none => .ok (.obj [])
    | .ok (some plan) =>
      match mdictRels plan.relatedMap m with
      | .error e => .error e
      | .ok relPairs => .ok (.obj (applyProps
          (relPairs.foldl (fun d kv => aset d kv.1 kv.2) (buildCols plan.modelAttrs m))
          props))
  | .many (m :: ms) =>
    match mkPlan m.cls (normalizeFields fields) _exclude with
    | .error e => .error e
    | .ok Option.none => .ok (.obj [])
    | .ok (some plan) =>
      match mdictList plan (m :: ms) props with
      | .error e => .error e
      | .ok datas => .ok (.arr (datas.map JVal.obj))
termination_by (sizeOf models, 0)
decreasing_by
  · apply Prod.Lex.left
    simp only [RelVal.one.sizeOf_spec]
    omega
  · apply Prod.Lex.left
    simp only [RelVal.many.sizeOf_spec]
    omega

/-- Per-model loop of the serializer over a model list. -/
def mdictList (plan : DictPlan) (models : List MInst)
    (props : List (String × JVal)) :
    Except PyError (List (List (String × JVal))) :=
  match models with
  | [] => .ok []
  | m :: rest =>
    match mdictRels plan.relatedMap m with
    | .error e => .error e
    | .ok relPairs =>
      let data := applyProps
        (relPairs.foldl (fun d kv => aset d kv.1 kv.2) (buildCols plan.modelAttrs m))
        props
      match mdictList plan rest props with
      | .error e => .error e
      | .ok datas => .ok (data :: datas)
termination_by (sizeOf models, 1)
decreasing_by
  · apply Prod.Lex.left
    simp only [List.cons.sizeOf_spec]
    omega
  · apply Prod.Lex.left
    simp only [List.cons.sizeOf_spec]
    omega

/-- Relationship loop of the serializer: each entry of the related map is
serialized recursively with its restricted field list. -/
def mdictRels (rm : List (String × List String)) (m : MInst) :
    Except PyError (List (String × JVal)) :=
  match rm with
  | [] => .ok []
  | (k, flds) :: rest =>
    match _model_to_dict (m.getRel k) flds [] [] with
    | .error e => .error e
    | .ok v =>
      match mdictRels rest m with
      | .error e => .error e
      | .ok ps => .ok ((k, v) :: ps)
termination_by (sizeOf m, rm.length + 2)
decreasing_by
  · apply Prod.Lex.left
    exact sizeOf_getRel_lt m k
  · apply Prod.Lex.right
    simp only [List.length_cons]
    omega
end

/-- ActiveRecord.to_dict: serialize a single instance.  The exclude list and
the extra props arrive in Python inside the keyword arguments; as keyword
keys are unique we pass them as separate arguments. -/
def to_dict (m : MInst) (fields _exclude : List String)
    (props : List (String × JVal)) : Except PyError JVal :=
  _model_to_dict (.one m) fields _exclude props

/-! Embedding of find_in_batches.

Source (_QueryHelper.find_in_batches): the offset is the Python expression
batch_size and start or 0, the effective batch size is batch_size or start
or 1000 (both over truthiness, where None and 0 are falsy), a negative
offset becomes 0, an effective batch size below 1 raises a generic
Exception, and the loop then yields non-empty row batches until a short
batch ends the iteration. -/

/-- Python truthiness of an optional integer: None and 0 are falsy. -/
def truthy : Option Int → Bool
  | Option.none => false
  | some n => n != 0

/-- Python or over optional integers. -/
def pyOr (a b : Option Int) : Option Int := if truthy a then a else b

/-- Python and over optional integers. -/
def pyAnd (a b : Option Int) : Option Int := if truthy a then b else a

/-- Argument normalization and validation of find_in_batches, up to the
raise that precedes the fetch loop. -/
def find_in_batches_args (start batch_size : Option Int) :
    Except PyError (Int × Int) :=
  let offset0 := (pyOr (pyAnd batch_size start) (some 0)).getD 0
  let bs := (pyOr (pyOr batch_size start) (some 1000)).getD 1000
  let offset := if offset0 < 0 then 0 else offset0
  if bs < 1 then .error (.exception "batch_size must be positive")
  else .ok (offset, bs)

/-- The fetch loop.  The rows function stands for the offset-limit query of
the wrapped ORM; the fuel bounds the unbounded Python while loop and is
irrelevant once the table is exhausted. -/
def batchesLoop {α : Type} (rows : Int → Int → List α) (bs : Int) :
    Int → Nat → List (List α)
  | _, 0 => []
  | offset, Nat.succ fuel =>
    let rs := rows offset bs
    let yielded := if rs.isEmpty then ([] : List (List α)) else [rs]
    if (rs.length : Int) < bs then yielded
    else yielded ++ batchesLoop rows bs (offset + bs) fuel

/-- find_in_batches: validate the arguments, then fetch; the list of yielded
batches stands for the generator run to completion. -/
def find_in_batches {α : Type} (rows : Int → Int → List α)
    (start batch_size : Option Int) (fuel : Nat) :
    Except PyError (List (List α)) :=
  match find_in_batches_args start batch_size with
  | .error e => .error e
  | .ok (offset, bs) => .ok (batchesLoop rows bs offset fuel)

/-- A three-row table, as an offset-limit query function. -/
def exTable (offset limit : Int) : List Int :=
  (((List.range 3).map Int.ofNat).drop offset.toNat).take limit.toNat

/-! Embedding of the module-level patching.

Source (patch_model and the module top level): the module top level only
imports names and defines functions and classes; the patch function, when
called, rebinds flask_sqlalchemy.Model to the ActiveRecord class. -/

/-- The class currently bound to flask_sqlalchemy.Model. -/
inductive ModelBase where
  | flaskDefault
  | activeRecordClass
deriving DecidableEq

structure PatchState where
  flaskModel : ModelBase
deriving DecidableEq

/-- A top-level statement of the module: a definition (of a function, class
or constant), or a call of the patch function. -/
inductive TopStmt where
  | defineName (n : String)
  | callPatchModel

def execStmt (s : PatchState) : TopStmt → PatchState
  | .defineName _ => s
  | .callPatchModel => { flaskModel := .activeRecordClass }

/-- The top-level statements of flask_activerecord.py, in order: only
definitions, no call of the patch function. -/
def moduleTopLevel : List TopStmt :=
  [.defineName "patch_model", .defineName "_get_mapper", .defineName "_memoize",
   .defineName "_get_primary_keys", .defineName "_get_columns",
   .defineName "_get_relations", .defineName "_model_to_dict",
   .defineName "json_value", .defineName "_select_options",
   .defineName "_where_clause", .defineName "_QueryHelper",
   .defineName "EMPTY", .defineName "ActiveRecord"]

/-- Importing the module executes its top level. -/
def importModule (s : PatchState) : PatchState := moduleTopLevel.foldl execStmt s

/-- patch_model: rebind flask_sqlalchemy.Model to ActiveRecord. -/
def patch_model (s : PatchState) : PatchState := execStmt s .callPatchModel

/-- The methods defined on the ActiveRecord class (flask_activerecord.py,
class body), which every model class defined against the patched base
inherits. -/
def activeRecordMethods : List String :=
  ["__repr__", "assign", "update", "save", "delete", "to_dict", "get_columns",
   "create", "destroy", "find", "all", "first", "last", "take", "count",
   "find_by", "find_each", "find_in_batches", "select", "where"]

/-- Methods visible on a model class deriving from ActiveRecord: its own
methods shadow, the rest is inherited. -/
def modelClassMethods (own : List String) : List String :=
  own ++ activeRecordMethods

/-! Embedding of the session-facing methods.

The wrapped ORM session is abstracted by an oracle giving the outcome of
each primitive (which may raise a database-level failure), and each method
additionally threads the list of session effects it has performed.  None of
the methods of the source contains a try or except, so every oracle error
passes through unchanged. -/

/-- A session primitive performed by a method. -/
inductive DBEffect where
  | addObj (m : MInst)
  | commitSession
  | deleteObj (m : MInst)

/-- Outcomes of the session primitives of the wrapped ORM. -/
structure SessionOracle where
  onAdd : MInst → Except PyError Unit
  onCommit : Except PyError Unit
  onDelete : MInst → Except PyError Unit

/-- Outcomes of query execution by the wrapped ORM. -/
structure QueryOracle where
  getById : Int → Except PyError MInst
  runAll : Except PyError (List MInst)

namespace ActiveRecord

/-- Loop body of ActiveRecord.assign for one column key: skip a protected
key, and set the attribute from the keyword arguments when the key occurs
there and the accessible filter is empty or names it. -/
def assignStep (cls : Model) (kwargs : List (String × PyVal))
    (acc : List (String × PyVal)) (key : String) : List (String × PyVal) :=
  if cls.protectedAttrs.contains key then acc
  else if containsKey kwargs key
      && (cls.accessible.isEmpty || cls.accessible.contains key)
  then aset acc key ((alookup kwargs key).getD .none)
  else acc

/-- ActiveRecord.assign: run the loop body over all column keys; the body
touches no session state. -/
def assign (self : MInst) (kwargs : List (String × PyVal)) : MInst :=
  .mk self.cls
    (self.cls.columns.foldl (assignStep self.cls kwargs) self.colAttrs)
    self.relAttrs

/-- ActiveRecord.save: add the instance to the session and, when the commit
flag is set, commit. -/
def save (orc : SessionOracle) (self : MInst) (commit : Bool)
    (trace : List DBEffect) : Except PyError (MInst × List DBEffect) :=
  match orc.onAdd self with
  | .error e => .error e
  | .ok _ =>
    let trace1 := trace ++ [DBEffect.addObj self]
    if commit then
      match orc.onCommit with
      | .error e => .error e
      | .ok _ => .ok (self, trace1 ++ [DBEffect.commitSession])
    else .ok (self, trace1)

/-- ActiveRecord.create: construct an instance from the keyword arguments
and save it. -/
def create (orc : SessionOracle) (cls : Model) (kwargs : List (String × PyVal))
    (trace : List DBEffect) : Except PyError (MInst × List DBEffect) :=
  save orc (.mk cls kwargs []) true trace

/-- ActiveRecord.update: assign, then save. -/
def update (orc : SessionOracle) (self : MInst) (kwargs : List (String × PyVal))
    (trace : List DBEffect) : Except PyError (MInst × List DBEffect) :=
  save orc (assign self kwargs) true trace

/-- ActiveRecord.delete: mark the instance for deletion and, when the commit
flag is set, commit; the returned value is the Python expression commit and
session.commit(), False without a commit and None with one. -/
def delete (orc : SessionOracle) (self : MInst) (commit : Bool)
    (trace : List DBEffect) : Except PyError (PyVal × List DBEffect) :=
  match orc.onDelete self with
  | .error e => .error e
  | .ok _ =>
    let trace1 := trace ++ [DBEffect.deleteObj self]
    if commit then
      match orc.onCommit with
      | .error e => .error e
      | .ok _ => .ok (.none, trace1 ++ [DBEffect.commitSession])
    else .ok (.bool false, trace1)

/-- ActiveRecord.destroy: look every id up, delete it without committing,
then commit once. -/
def destroy (orc : SessionOracle) (q : QueryOracle) (ids : List Int)
    (trace : List DBEffect) : Except PyError (List DBEffect) :=
  match ids with
  | [] =>
    match orc.onCommit with
    | .error e => .error e
    | .ok _ => .ok (trace ++ [DBEffect.commitSession])
  | pk :: rest =>
    match q.getById pk with
    | .error e => .error e
    | .ok m =>
      match delete orc m false trace with
      | .error e => .error e
      | .ok (_, trace1) => destroy orc q rest trace1

/-- Query execution of the helper: the compiled query is run by the wrapped
ORM. -/
def queryAll (q : QueryOracle) : Except PyError (List MInst) := q.runAll

end ActiveRecord

/-! Concrete instances used by the closed-instance theorems. -/

def todo1 : MInst := .mk todoModel [("tid", .int 1), ("title", .str "A")] []

def user1 : MInst := .mk userModel
  [("id", .int 7), ("email", .str "e"), ("password", .str "s"), ("name", .str "Bill")]
  [("todos", .many [todo1])]

/-- An oracle whose commit raises a database-level failure. -/
def failCommitOracle : SessionOracle :=
  { onAdd := fun _ => .ok (), onCommit := .error (.dbError "constraint violated"),
    onDelete := fun _ => .ok () }

/-! Helper lemmas about the association-list operations. -/

theorem alookup_aset_self {α : Type} (l : List (String × α)) (k : String) (v : α) :
    alookup (aset l k v) k = some v := by
  induction l with
  | nil => simp [aset, alookup]
  | cons hd tl ih =>
    obtain ⟨a, b⟩ := hd
    by_cases h : a = k
    · simp [aset, alookup, h]
    · simp [aset, alookup, h, ih]

theorem alookup_aset_ne {α : Type} (l : List (String × α)) (k k' : String) (v : α)
    (h : k' ≠ k) : alookup (aset l k v) k' = alookup l k' := by
  have hke : k ≠ k' := fun hh => h hh.symm
  induction l with
  | nil => simp [aset, alookup, hke]
  | cons hd tl ih =>
    obtain ⟨a, b⟩ := hd
    by_cases hak : a = k
    · subst hak
      simp [aset, alookup, hke]
    · simp only [aset, beq_iff_eq, if_neg hak, alookup]
      by_cases hak' : a = k'
      · simp [hak']
      · simp [hak', ih]

theorem mem_keys_aset {α : Type} (l : List (String × α)) (k x : String) (v : α)
    (h : x ∈ (aset l k v).map Prod.fst) : x ∈ l.map Prod.fst ∨ x = k := by
  induction l with
  | nil => simp [aset] at h; exact Or.inr h
  | cons hd tl ih =>
    obtain ⟨a, b⟩ := hd
    by_cases hak : a = k
    · subst hak
      simp only [aset, beq_iff_eq, if_pos rfl] at h
      simp only [List.map_cons] at h ⊢
      exact Or.inl h
    · simp only [aset, beq_iff_eq, if_neg hak] at h
      simp only [List.map_cons, List.mem_cons] at h ⊢
      rcases h with h | h
      · exact Or.inl (Or.inl h)
      · rcases ih h with h2 | h2
        · exact Or.inl (Or.inr h2)
        · exact Or.inr h2

/-! Helper lemmas about the Except-valued map. -/

theorem mapMExcept_ok_forall {α β : Type} {f : α → Except PyError β}
    {l : List α} {bs : List β} (h : mapMExcept f l = .ok bs) :
    ∀ a ∈ l, ∃ b, f a = .ok b := by
  induction l generalizing bs with
  | nil => intro a ha; simp at ha
  | cons hd tl ih =>
    intro a ha
    simp only [mapMExcept] at h
    cases hhd : f hd with
    | error e => rw [hhd] at h; simp at h
    | ok b =>
      rw [hhd] at h
      cases htl : mapMExcept f tl with
      | error e => rw [htl] at h; simp at h
      | ok bs2 =>
        rcases List.mem_cons.mp ha with rfl | ha2
        · exact ⟨b, hhd⟩
        · exact ih htl a ha2

theorem mapMExcept_error_exists {α β : Type} {f : α → Except PyError β}
    {l : List α} {e : PyError} (h : mapMExcept f l = .error e) :
    ∃ a ∈ l, f a = .error e := by
  induction l with
  | nil => simp [mapMExcept] at h
  | cons hd tl ih =>
    simp only [mapMExcept] at h
    cases hhd : f hd with
    | error e2 =>
      rw [hhd] at h
      simp only [Except.error.injEq] at h
      subst h
      exact ⟨hd, List.mem_cons_self hd tl, hhd⟩
    | ok b =>
      rw [hhd] at h
      cases htl : mapMExcept f tl with
      | error e2 =>
        rw [htl] at h
        simp only [Except.error.injEq] at h
        subst h
        obtain ⟨a, ha, hfa⟩ := ih htl
        exact ⟨a, List.mem_cons_of_mem hd ha, hfa⟩
      | ok bs => rw [htl] at h; simp at h

/-- The column branch of the where-clause builder raises ValueError and
nothing else. -/
theorem colFilterCond_error_valueError {n k : String} {v : PyVal} {e : PyError}
    (h : colFilterCond n k v = .error e) : ∃ msg, e = .valueError msg := by
  unfold colFilterCond at h
  split at h
  · split at h
    · simp at h
    · simp only [Except.error.injEq] at h; exact ⟨_, h.symm⟩
  · simp only [Except.error.injEq] at h; exact ⟨_, h.symm⟩
  · simp at h
  · simp at h
  · simp at h

/-- A tuple whose length differs from 2 makes the column branch raise. -/
theorem colFilterCond_tuple_bad {n k : String} {vs : List PyVal}
    (h : vs.length ≠ 2) :
    ∃ msg, colFilterCond n k (.tuple vs) = .error (.valueError msg) := by
  rcases vs with _ | ⟨a, _ | ⟨b, _ | ⟨c, t⟩⟩⟩
  · exact ⟨_, rfl⟩
  · exact ⟨_, rfl⟩
  · exact absurd rfl h
  · exact ⟨_, rfl⟩

/-- C1: the claim states that a set of simple values yields an IN
expression.  The code only unwraps lists: a set value is wrapped into a
singleton and compared with an equality against the whole set, as this
closed evaluation of the translator shows, contradicting the function
docstring which promises IN for list and set alike. -/
theorem c1_theorem : _where_clause userModel []
    [("name", PyVal.set [PyVal.str "A", PyVal.str "B"])] =
    .ok [Cond.eq "name" (PyVal.set [PyVal.str "A", PyVal.str "B"])] := rfl

/-- C3: a column filter holding a tuple whose size is not 2 makes the
where-clause builder raise ValueError, and no condition list is returned
(the result is the raised error, not a list). -/
theorem c3_theorem (model : Model) (criteria : List Cond)
    (filters : List (String × PyVal)) (k : String) (vs : List PyVal)
    (hmem : (k, PyVal.tuple vs) ∈ filters) (hcol : k ∈ model.columns)
    (hlen : vs.length ≠ 2) :
    ∃ msg, _where_clause model criteria filters = .error (.valueError msg) := by
  unfold _where_clause
  have hmem2 : (k, PyVal.tuple vs) ∈ filters.filter
      (fun kv => model.columns.contains kv.1) := by
    refine List.mem_filter.mpr ⟨hmem, ?_⟩
    simpa [List.elem_iff] using hcol
  cases hmm : mapMExcept (fun kv => colFilterCond model.name kv.1 kv.2)
      (filters.filter (fun kv => model.columns.contains kv.1)) with
  | ok bs =>
    obtain ⟨b, hb⟩ := mapMExcept_ok_forall hmm _ hmem2
    obtain ⟨msg, hmsg⟩ := colFilterCond_tuple_bad (n := model.name) (k := k) hlen
    rw [hmsg] at hb
    simp at hb
  | error e =>
    obtain ⟨a, _, hfa⟩ := mapMExcept_error_exists hmm
    obtain ⟨msg, hmsg⟩ := colFilterCond_error_valueError hfa
    refine ⟨msg, ?_⟩
    simp only [_where_clause]
    rw [hmm, hmsg]

theorem c3_witness : ∃ msg, _where_clause userModel []
    [("name", PyVal.tuple [PyVal.int 1])] = .error (.valueError msg) :=
  c3_theorem userModel [] _ "name" [PyVal.int 1] (List.Mem.head _)
    (by decide) (by decide)

/-- C5: a column filter holding an empty list makes the where-clause builder
raise ValueError instead of generating an IN expression. -/
theorem c5_theorem (model : Model) (criteria : List Cond)
    (filters : List (String × PyVal)) (k : String)
    (hmem : (k, PyVal.list []) ∈ filters) (hcol : k ∈ model.columns) :
    ∃ msg, _where_clause model criteria filters = .error (.valueError msg) := by
  unfold _where_clause
  have hmem2 : (k, PyVal.list []) ∈ filters.filter
      (fun kv => model.columns.contains kv.1) := by
    refine List.mem_filter.mpr ⟨hmem, ?_⟩
    simpa [List.elem_iff] using hcol
  cases hmm : mapMExcept (fun kv => colFilterCond model.name kv.1 kv.2)
      (filters.filter (fun kv => model.columns.contains kv.1)) with
  | ok bs =>
    obtain ⟨b, hb⟩ := mapMExcept_ok_forall hmm _ hmem2
    simp [colFilterCond] at hb
  | error e =>
    obtain ⟨a, _, hfa⟩ := mapMExcept_error_exists hmm
    obtain ⟨msg, hmsg⟩ := colFilterCond_error_valueError hfa
    refine ⟨msg, ?_⟩
    simp only [_where_clause]
    rw [hmm, hmsg]

theorem c5_witness : ∃ msg, _where_clause userModel []
    [("title", PyVal.str "x"), ("name", PyVal.list [])] =
    .error (.valueError msg) :=
  c5_theorem userModel [] _ "name" (List.Mem.tail _ (List.Mem.head _)) (by decide)

/-- C7: the claim states that the substitution happens at import time.  The
module top level only defines names; importing it leaves the binding of
flask_sqlalchemy.Model unchanged, so import alone does not substitute the
base class, refuting the claim at the initial binding. -/
theorem c7_counterexample :
    importModule ⟨ModelBase.flaskDefault⟩ = ⟨ModelBase.flaskDefault⟩ := rfl

/-- C7 (amended): importing the module leaves the base-class binding
unchanged; it is the explicit call of the patch function that rebinds
flask_sqlalchemy.Model to ActiveRecord, after which every model class
defined against the patched base inherits the convenience methods. -/
theorem c7_theorem (s : PatchState) (own : List String) (n : String)
    (hn : n ∈ ["create", "find", "all", "first", "where", "select", "update",
      "delete", "to_dict", "find_each", "find_in_batches"]) :
    importModule s = s ∧
    (patch_model s).flaskModel = ModelBase.activeRecordClass ∧
    n ∈ modelClassMethods own := by
  refine ⟨rfl, rfl, ?_⟩
  have hsub : ∀ x ∈ ["create", "find", "all", "first", "where", "select",
      "update", "delete", "to_dict", "find_each", "find_in_batches"],
      x ∈ activeRecordMethods := by decide
  exact List.mem_append_right own (hsub n hn)

theorem c7_witness :
    importModule ⟨ModelBase.flaskDefault⟩ = ⟨ModelBase.flaskDefault⟩ ∧
    (patch_model ⟨ModelBase.flaskDefault⟩).flaskModel =
      ModelBase.activeRecordClass ∧
    "create" ∈ modelClassMethods [] :=
  c7_theorem ⟨ModelBase.flaskDefault⟩ [] "create" (by decide)

/-- C8: none of the session-facing methods guards the session primitives, so
a database-level failure of the wrapped ORM during save, create, update,
delete, destroy or query execution is returned unchanged. -/
theorem c8_theorem (orc : SessionOracle) (q : QueryOracle) (m : MInst)
    (cls : Model) (kwargs : List (String × PyVal)) (trace : List DBEffect)
    (pk : Int) (e : PyError) :
    (orc.onAdd m = .error e → ∀ c, ActiveRecord.save orc m c trace = .error e) ∧
    (orc.onAdd m = .ok () → orc.onCommit = .error e →
      ActiveRecord.save orc m true trace = .error e) ∧
    (orc.onAdd (MInst.mk cls kwargs []) = .error e →
      ActiveRecord.create orc cls kwargs trace = .error e) ∧
    (orc.onAdd (ActiveRecord.assign m kwargs) = .error e →
      ActiveRecord.update orc m kwargs trace = .error e) ∧
    (orc.onDelete m = .error e → ∀ c, ActiveRecord.delete orc m c trace = .error e) ∧
    (q.getById pk = .error e → ActiveRecord.destroy orc q [pk] trace = .error e) ∧
    (q.runAll = .error e → ActiveRecord.queryAll q = .error e) := by
  refine ⟨?_, ?_, ?_, ?_, ?_, ?_, ?_⟩
  · intro h c
    simp [ActiveRecord.save, h]
  · intro h1 h2
    simp [ActiveRecord.save, h1, h2]
  · intro h
    simp [ActiveRecord.create, ActiveRecord.save, h]
  · intro h
    simp [ActiveRecord.update, ActiveRecord.save, h]
  · intro h c
    simp [ActiveRecord.delete, h]
  · intro h
    simp [ActiveRecord.destroy, h]
  · intro h
    simpa [ActiveRecord.queryAll] using h

theorem c8_witness :
    ActiveRecord.save failCommitOracle user1 true [] =
      .error (.dbError "constraint violated") :=
  (c8_theorem failCommitOracle ⟨fun _ => .ok user1, .ok []⟩ user1 todoModel [] []
    0 (.dbError "constraint violated")).2.1 rfl rfl
theorem assignStep_ne (cls : Model) (kwargs acc : List (String × PyVal))
    (key k : String) (h : key ≠ k) :
    alookup (ActiveRecord.assignStep cls kwargs acc key) k = alookup acc k := by
  unfold ActiveRecord.assignStep
  split
  · rfl
  · split
    · exact alookup_aset_ne _ _ _ _ (fun hh => h hh.symm)
    · rfl

theorem assignStep_skip (cls : Model) (kwargs acc : List (String × PyVal))
    (k : String)
    (h : cls.protectedAttrs.contains k = true
      ∨ (containsKey kwargs k
          && (cls.accessible.isEmpty || cls.accessible.contains k)) = false) :
    ActiveRecord.assignStep cls kwargs acc k = acc := by
  unfold ActiveRecord.assignStep
  rcases h with h | h
  · rw [if_pos h]
  · by_cases hp : cls.protectedAttrs.contains k = true
    · rw [if_pos hp]
    · rw [if_neg hp, if_neg (by rw [h]; simp)]

theorem assign_fold_preserve (cls : Model) (kwargs : List (String × PyVal))
    (keys : List String) (init : List (String × PyVal)) (k : String) (v : PyVal)
    (hkw : alookup kwargs k = some v) (hinit : alookup init k = some v) :
    alookup (keys.foldl (ActiveRecord.assignStep cls kwargs) init) k = some v := by
  induction keys generalizing init with
  | nil => exact hinit
  | cons hd tl ih =>
    simp only [List.foldl_cons]
    refine ih _ ?_
    by_cases hh : hd = k
    · subst hh
      unfold ActiveRecord.assignStep
      split
      · exact hinit
      · split
        · rw [alookup_aset_self, hkw]
          rfl
        · exact hinit
    · rw [assignStep_ne _ _ _ _ _ hh]
      exact hinit

theorem assign_fold_set (cls : Model) (kwargs : List (String × PyVal))
    (keys : List String) (init : List (String × PyVal)) (k : String) (v : PyVal)
    (hkw : alookup kwargs k = some v)
    (hprot : cls.protectedAttrs.contains k = false)
    (hacc : (cls.accessible.isEmpty || cls.accessible.contains k) = true)
    (hk : k ∈ keys) :
    alookup (keys.foldl (ActiveRecord.assignStep cls kwargs) init) k = some v := by
  induction keys generalizing init with
  | nil => simp at hk
  | cons hd tl ih =>
    simp only [List.foldl_cons]
    by_cases hh : hd = k
    · subst hh
      refine assign_fold_preserve cls kwargs tl _ hd v hkw ?_
      unfold ActiveRecord.assignStep
      rw [if_neg (by rw [hprot]; simp),
        if_pos (by rw [Bool.and_eq_true]
                   exact ⟨by simp [containsKey, hkw], hacc⟩),
        alookup_aset_self, hkw]
      rfl
    · rcases List.mem_cons.mp hk with hq | hq
      · exact absurd hq.symm hh
      · exact ih _ hq

theorem assign_fold_frame (cls : Model) (kwargs : List (String × PyVal))
    (keys : List String) (init : List (String × PyVal)) (k : String)
    (h : k ∉ keys
      ∨ cls.protectedAttrs.contains k = true
      ∨ containsKey kwargs k = false
      ∨ (cls.accessible.isEmpty || cls.accessible.contains k) = false) :
    alookup (keys.foldl (ActiveRecord.assignStep cls kwargs) init) k
      = alookup init k := by
  induction keys generalizing init with
  | nil => rfl
  | cons hd tl ih =>
    simp only [List.foldl_cons]
    have htl : k ∉ tl
        ∨ cls.protectedAttrs.contains k = true
        ∨ containsKey kwargs k = false
        ∨ (cls.accessible.isEmpty || cls.accessible.contains k) = false := by
      rcases h with h | h
      · exact Or.inl (fun hq => h (List.mem_cons_of_mem hd hq))
      · exact Or.inr h
    have hstep : alookup (ActiveRecord.assignStep cls kwargs init hd) k
        = alookup init k := by
      by_cases hh : hd = k
      · subst hh
        rcases h with h | h | h | h
        · exact absurd (List.mem_cons_self _ _) h
        · rw [assignStep_skip _ _ _ _ (Or.inl h)]
        · rw [assignStep_skip _ _ _ _ (Or.inr (by rw [h]; simp))]
        · rw [assignStep_skip _ _ _ _ (Or.inr (by rw [h]; simp))]
      · exact assignStep_ne _ _ _ _ _ hh
    rw [ih _ htl, hstep]

/-- C10: mass assignment sets exactly the column attributes that occur in
the keyword arguments, pass the protected filter and, when the accessible
filter is non-empty, the accessible filter; every other attribute is
unchanged, the relationship attributes and the class are untouched, and the
only session effects of an update are the add and commit of the save that
follows the assignment, the assignment itself contributing none (its
embedding performs no session primitive). -/
theorem c10_theorem (self : MInst) (kwargs : List (String × PyVal)) :
    (∀ k v, k ∈ self.cls.columns →
      self.cls.protectedAttrs.contains k = false →
      (self.cls.accessible.isEmpty || self.cls.accessible.contains k) = true →
      alookup kwargs k = some v →
      alookup (ActiveRecord.assign self kwargs).colAttrs k = some v) ∧
    (∀ k, (k ∉ self.cls.columns ∨ self.cls.protectedAttrs.contains k = true ∨
        containsKey kwargs k = false ∨
        (self.cls.accessible.isEmpty || self.cls.accessible.contains k) = false) →
      alookup (ActiveRecord.assign self kwargs).colAttrs k = alookup self.colAttrs k) ∧
    (ActiveRecord.assign self kwargs).relAttrs = self.relAttrs ∧
    (ActiveRecord.assign self kwargs).cls = self.cls ∧
    (∀ orc trace, orc.onAdd (ActiveRecord.assign self kwargs) = .ok () →
      orc.onCommit = .ok () →
      ActiveRecord.update orc self kwargs trace =
        .ok (ActiveRecord.assign self kwargs,
          trace ++ [DBEffect.addObj (ActiveRecord.assign self kwargs),
            DBEffect.commitSession])) := by
  refine ⟨?_, ?_, ?_, ?_, ?_⟩
  · intro k v hcol hprot hacc hkw
    simp only [ActiveRecord.assign, MInst.colAttrs]
    exact assign_fold_set self.cls kwargs self.cls.columns self.colAttrs k v
      hkw hprot hacc hcol
  · intro k hk
    simp only [ActiveRecord.assign, MInst.colAttrs]
    refine assign_fold_frame self.cls kwargs self.cls.columns self.colAttrs k ?_
    tauto
  · simp [ActiveRecord.assign, MInst.relAttrs]
  · simp [ActiveRecord.assign, MInst.cls]
  · intro orc trace h1 h2
    simp [ActiveRecord.update, ActiveRecord.save, h1, h2]

theorem c10_witness :
    alookup (ActiveRecord.assign user1
      [("name", PyVal.str "Joe"), ("password", PyVal.str "z")]).colAttrs "name" =
      some (PyVal.str "Joe") :=
  (c10_theorem user1 [("name", PyVal.str "Joe"), ("password", PyVal.str "z")]).1
    "name" (PyVal.str "Joe") (by decide) (by decide) (by decide) rfl

/-- C2: with a non-empty field selection F the projector defers exactly the
columns outside F united with the primary keys and eager-loads exactly the
requested relationships, and with no selection it defers nothing.  The two
hypotheses are mapper invariants of the wrapped ORM: property keys are
unique, so no relationship shares a key with a column, and primary keys are
columns. -/
theorem c2_theorem (model : Model) (fields : List String) (k : String)
    (hdisj : ∀ x ∈ model.relations, x ∉ model.columns)
    (hpk : ∀ x ∈ model.primaryKeys, x ∈ model.columns) :
    (fields ≠ [] → ((LoaderOption.defer k ∈ _select_options model fields) ↔
      (k ∈ model.columns ∧ k ∉ fields ∧ k ∉ model.primaryKeys))) ∧
    (fields ≠ [] → ((LoaderOption.eagerload k ∈ _select_options model fields) ↔
      (k ∈ model.relations ∧ k ∈ fields))) ∧
    (fields = [] → LoaderOption.defer k ∉ _select_options model fields) := by
  refine ⟨?_, ?_, ?_⟩
  · intro hne
    simp only [_select_options]
    simp [List.mem_filter, List.elem_iff, hne]
  · intro hne
    simp only [_select_options]
    simp [List.mem_filter, List.elem_iff, hne]
    intro hr hp
    exact absurd (hpk _ hp) (hdisj _ hr)
  · intro he
    subst he
    simp [_select_options, List.mem_filter]

theorem c2_witness :
    LoaderOption.defer "email" ∈ _select_options userModel ["name", "todos"] :=
  ((c2_theorem userModel ["name", "todos"] "email" (by decide) (by decide)).1
    (by decide)).mpr (by decide)

/-- C4: the claim states that every call with batch_size at most 0 raises.
A batch size of exactly 0 is falsy in Python, so the expression batch_size
or start or 1000 silently replaces it before the validation check: with
start 10 and batch_size 0 the call succeeds and yields a batch, refuting
the claim. -/
theorem c4_counterexample :
    find_in_batches exTable (some 10) (some 0) 5 = .ok [[0, 1, 2]] := rfl

/-- C4 (amended): a negative batch_size raises the generic Exception before
any batch is yielded; a batch_size of 0 is treated as not provided, the
effective batch size falling back to start when start is truthy and to 1000
otherwise, and only a resulting effective batch size below 1 raises. -/
theorem c4_theorem {α : Type} (rows : Int → Int → List α) (start : Option Int)
    (n : Int) (fuel : Nat) (h : n < 0) :
    find_in_batches rows start (some n) fuel =
      .error (.exception "batch_size must be positive") := by
  have ht : truthy (some n) = true := by
    simp only [truthy, bne_iff_ne]
    omega
  simp only [find_in_batches, find_in_batches_args, pyOr, pyAnd, ht,
    if_pos ht, if_true, Option.getD_some]
  rw [if_pos (by omega : n < 1)]

/-! Helper lemmas about the field-splitting functions. -/

theorem splitComma_no_comma (l : List Char) (h : ∀ c ∈ l, c ≠ ',') :
    splitComma l = [l] := by
  induction l with
  | nil => rfl
  | cons c rest ih =>
    simp only [splitComma, ih (fun x hx => h x (List.mem_cons_of_mem _ hx))]
    rw [if_neg (h c (List.mem_cons_self _ _))]

theorem trimChars_id (l : List Char) (h : ∀ c ∈ l, c.isWhitespace = false) :
    trimChars l = l := by
  unfold trimChars
  have h1 : l.dropWhile Char.isWhitespace = l := by
    cases l with
    | nil => rfl
    | cons c rest =>
      rw [List.dropWhile_cons, if_neg (by simp [h c (List.mem_cons_self _ _)])]
  rw [h1]
  have h2 : l.reverse.dropWhile Char.isWhitespace = l.reverse := by
    cases hrev : l.reverse with
    | nil => rfl
    | cons c rest =>
      have hc : c ∈ l := by
        rw [← List.mem_reverse, hrev]
        exact List.mem_cons_self _ _
      rw [List.dropWhile_cons, if_neg (by simp [h c hc])]
  rw [h2, List.reverse_reverse]

theorem normalizeFields_single (s : String)
    (h : ∀ c ∈ s.toList, c ≠ ',' ∧ c.isWhitespace = false) :
    normalizeFields [s] = [s] := by
  simp only [normalizeFields]
  rw [splitComma_no_comma _ (fun c hc => (h c hc).1)]
  simp only [List.map_cons, List.map_nil]
  rw [trimChars_id _ (fun c hc => (h c hc).2)]
  rfl

theorem splitDotChars_no_dot (l : List Char) (h : ∀ c ∈ l, c ≠ '.') :
    splitDotChars l = Option.none := by
  induction l with
  | nil => rfl
  | cons c rest ih =>
    simp only [splitDotChars]
    rw [if_neg (h c (List.mem_cons_self _ _)),
      ih (fun x hx => h x (List.mem_cons_of_mem _ hx))]

theorem splitDotChars_append (a b : List Char) (h : ∀ c ∈ a, c ≠ '.') :
    splitDotChars (a ++ '.' :: b) = some (a, b) := by
  induction a with
  | nil => simp [splitDotChars]
  | cons c rest ih =>
    simp only [List.cons_append, splitDotChars, List.append_eq]
    rw [if_neg (h c (List.mem_cons_self _ _)),
      ih (fun x hx => h x (List.mem_cons_of_mem _ hx))]

theorem splitDot_no_dot (s : String) (h : ∀ c ∈ s.toList, c ≠ '.') :
    splitDot s = Option.none := by
  unfold splitDot
  rw [splitDotChars_no_dot _ h]

theorem splitDot_concat (r attr : String) (h : ∀ c ∈ r.toList, c ≠ '.') :
    splitDot (String.mk (r.toList ++ '.' :: attr.toList)) = some (r, attr) := by
  unfold splitDot
  have : (String.mk (r.toList ++ '.' :: attr.toList)).toList
      = r.toList ++ '.' :: attr.toList := rfl
  rw [this, splitDotChars_append _ _ h]
  rfl

/-! Helper lemmas about the serializer plan. -/

theorem self_filter_not_contains (l : List String) :
    l.filter (fun k => !(l.contains k)) = [] := by
  refine List.filter_eq_nil_iff.mpr ?_
  intro a ha
  simp [List.elem_iff, ha]

theorem self_filter_contains_keep (l ex : List String) (hex : ex = []) :
    l.filter (fun k => l.contains k && !(ex.contains k)) = l := by
  subst hex
  refine List.filter_eq_self.mpr ?_
  intro a ha
  simp [List.elem_iff, ha]

/-- Plan of a call with no requested fields: nothing when the model has no
columns, otherwise all columns plus the primary keys and no related
fields. -/
theorem mkPlan_nil_fields (cls : Model) :
    mkPlan cls [] [] = (if cls.columns.isEmpty then .ok Option.none
      else .ok (some ⟨cls.columns
        ++ cls.primaryKeys.filter (fun k => !(cls.columns.contains k)), []⟩)) := by
  simp only [mkPlan, effectiveFields, List.filter_nil, List.isEmpty_nil, if_true,
    List.append_nil,
    self_filter_not_contains, dedupFirst, buildRelatedMap, buildRelatedMapAux,
    self_filter_contains_keep cls.columns [] rfl, Bool.and_true]

/-- Plan of a call requesting exactly one relationship name: the fields
default to all columns plus the name, every column is serialized, and the
relationship is serialized without restriction. -/
theorem mkPlan_single_rel (cls : Model) (r : String)
    (hr : r ∈ cls.relations) (hrc : r ∉ cls.columns)
    (hnd : ∀ c ∈ r.toList, c ≠ '.') :
    mkPlan cls [r] [] = .ok (some ⟨cls.columns
      ++ cls.primaryKeys.filter (fun k => !(cls.columns.contains k)),
      [(r, [])]⟩) := by
  have hcf : [r].filter (fun k => cls.columns.contains k) = [] := by
    simp [List.elem_iff, hrc]
  have hrel : dedupFirst ((cls.columns ++ [r]).filter
      (fun k => !(cls.columns.contains k))) = [r] := by
    rw [List.filter_append, self_filter_not_contains]
    simp [List.elem_iff, hrc, dedupFirst]
  have hbrm : buildRelatedMap cls.relations [r] = .ok [(r, [])] := by
    simp only [buildRelatedMap, buildRelatedMapAux, splitDot_no_dot r hnd]
    rw [if_pos (by simp [List.elem_iff, hr])]
    rfl
  have hnm : (cls.columns ++ [r]).filter
      (fun k => cls.columns.contains k && !(List.contains ([] : List String) k))
      = cls.columns := by
    rw [List.filter_append, self_filter_contains_keep cls.columns [] rfl]
    simp [List.elem_iff, hrc]
  simp only [mkPlan, effectiveFields, hcf, List.isEmpty_nil, if_true, hrel, hbrm, hnm]
  rw [if_neg (by simp)]

/-- Plan of a call requesting one dotted relationship field: the fields
default to all columns plus the dotted name, every column is serialized,
and the relationship is serialized restricted to the attribute suffix. -/
theorem mkPlan_dotted_rel (cls : Model) (r attr : String)
    (hr : r ∈ cls.relations)
    (hkc : String.mk (r.toList ++ '.' :: attr.toList) ∉ cls.columns)
    (hnd : ∀ c ∈ r.toList, c ≠ '.') :
    mkPlan cls [String.mk (r.toList ++ '.' :: attr.toList)] [] =
      .ok (some ⟨cls.columns
        ++ cls.primaryKeys.filter (fun k => !(cls.columns.contains k)),
        [(r, [attr])]⟩) := by
  set kf := String.mk (r.toList ++ '.' :: attr.toList) with hkf
  have hcf : [kf].filter (fun k => cls.columns.contains k) = [] := by
    simp [List.elem_iff, hkc]
  have hrel : dedupFirst ((cls.columns ++ [kf]).filter
      (fun k => !(cls.columns.contains k))) = [kf] := by
    rw [List.filter_append, self_filter_not_contains]
    simp [List.elem_iff, hkc, dedupFirst]
  have hbrm : buildRelatedMap cls.relations [kf] = .ok [(r, [attr])] := by
    simp only [buildRelatedMap, buildRelatedMapAux, hkf, splitDot_concat r attr hnd]
    rw [if_pos ?_]
    · simp only [alookup, beq_self_eq_true, if_true]
      simp [aset, buildRelatedMapAux]
    · simp [List.elem_iff, hr, containsKey, alookup]
  have hnm : (cls.columns ++ [kf]).filter
      (fun k => cls.columns.contains k && !(List.contains ([] : List String) k))
      = cls.columns := by
    rw [List.filter_append, self_filter_contains_keep cls.columns [] rfl]
    simp [List.elem_iff, hkc]
  simp only [mkPlan, effectiveFields, hcf, List.isEmpty_nil, if_true, hrel, hbrm, hnm]
  rw [if_neg (by simp)]

/-- The serializer never fails on a model list when the plan has no related
fields, and produces one dict per model. -/
theorem mdictList_nil_rels (plan : DictPlan) (hplan : plan.relatedMap = [])
    (models : List MInst) (props : List (String × JVal)) :
    ∃ datas, mdictList plan models props = .ok datas ∧
      datas.length = models.length := by
  induction models with
  | nil =>
    refine ⟨[], ?_, rfl⟩
    simp [mdictList]
  | cons m rest ih =>
    obtain ⟨datas, hds, hlen⟩ := ih
    refine ⟨applyProps (List.foldl
      (fun (d : List (String × JVal)) (kv : String × JVal) => aset d kv.1 kv.2)
      (buildCols plan.modelAttrs m) []) props :: datas, ?_, by simp [hlen]⟩
    rw [mdictList]
    rw [hplan]
    rw [mdictRels]
    rw [hds]

/-- With no requested fields the serializer never fails: a single model
serializes to a dict, and a collection of models with columns serializes to
a list of dicts. -/
theorem mdict_nil_fields (rv : RelVal) :
    ∃ v, _model_to_dict rv [] [] [] = .ok v ∧
      ((∃ m, rv = RelVal.one m) → ∃ o, v = JVal.obj o) ∧
      (∀ ms, rv = RelVal.many ms → (∀ mi ∈ ms, mi.cls.columns ≠ []) →
        ∃ a, v = JVal.arr a ∧ ∀ x ∈ a, ∃ o, x = JVal.obj o) := by
  cases rv with
  | none =>
    refine ⟨.obj [], by simp [_model_to_dict], fun _ => ⟨[], rfl⟩, ?_⟩
    intro ms hms
    exact absurd hms (by simp)
  | one m =>
    by_cases hc : m.cls.columns.isEmpty = true
    · refine ⟨.obj [], ?_, fun _ => ⟨[], rfl⟩, ?_⟩
      · rw [_model_to_dict]
        simp only [normalizeFields, mkPlan_nil_fields, if_pos hc]
      · intro ms hms
        exact absurd hms (by simp)
    · refine ⟨.obj (buildCols (m.cls.columns
        ++ m.cls.primaryKeys.filter (fun k => !(m.cls.columns.contains k))) m),
        ?_, fun _ => ⟨_, rfl⟩, ?_⟩
      · rw [_model_to_dict]
        simp only [normalizeFields, mkPlan_nil_fields, if_neg hc]
        rw [mdictRels]
        simp [applyProps]
      · intro ms hms
        exact absurd hms (by simp)
  | many ms =>
    cases ms with
    | nil =>
      refine ⟨.arr [], by rw [_model_to_dict], ?_, ?_⟩
      · rintro ⟨m, hm⟩
        exact absurd hm (by simp)
      · intro ms2 _ _
        exact ⟨[], rfl, by simp⟩
    | cons m rest =>
      by_cases hc : m.cls.columns.isEmpty = true
      · refine ⟨.obj [], ?_, ?_, ?_⟩
        · rw [_model_to_dict]
          simp only [normalizeFields, mkPlan_nil_fields, if_pos hc]
        · rintro ⟨m2, hm2⟩
          exact absurd hm2 (by simp)
        · intro ms2 hms2 hcols
          injection hms2 with h2
          subst h2
          have := hcols m (List.mem_cons_self _ _)
          rw [List.isEmpty_iff] at hc
          exact absurd hc this
      · obtain ⟨datas, hds, hlen⟩ := mdictList_nil_rels
          ⟨m.cls.columns
            ++ m.cls.primaryKeys.filter (fun k => !(m.cls.columns.contains k)), []⟩
          rfl (m :: rest) []
        refine ⟨.arr (datas.map JVal.obj), ?_, ?_, ?_⟩
        · rw [_model_to_dict]
          simp only [normalizeFields, mkPlan_nil_fields, if_neg hc]
          rw [hds]
        · rintro ⟨m2, hm2⟩
          exact absurd hm2 (by simp)
        · intro ms2 hms2 _
          refine ⟨datas.map JVal.obj, rfl, ?_⟩
          intro x hx
          obtain ⟨dd, _, hdd⟩ := List.mem_map.mp hx
          exact ⟨dd, hdd.symm⟩

/-- Serialization of a single model whose plan has exactly one related
entry: the result dict is the column dict with the recursively serialized
relationship assigned under its key. -/
theorem mdict_one_single_rel (m : MInst) (r : String) (flds fields : List String)
    (attrs : List String)
    (hplan : mkPlan m.cls (normalizeFields fields) [] =
      .ok (some ⟨attrs, [(r, flds)]⟩))
    (v : JVal) (hv : _model_to_dict (m.getRel r) flds [] [] = .ok v) :
    _model_to_dict (.one m) fields [] [] =
      .ok (.obj (aset (buildCols attrs m) r v)) := by
  rw [_model_to_dict, hplan]
  simp only
  rw [mdictRels, hv]
  simp only
  rw [mdictRels]
  simp [applyProps]

/-- C6: the serializer is recursive.  Requesting a relationship r (or a
dotted field r.attr) on a model produces a dict with key r whose value is
the recursive serialization of the related value, with the field list
restricted to attr for the dotted request; a single related model
serializes to a dict and a related collection of models having columns
serializes to a list of dicts. -/
theorem c6_theorem (m : MInst) (r attr : String)
    (hr : r ∈ m.cls.relations) (hrc : r ∉ m.cls.columns)
    (hplain : ∀ c ∈ r.toList, c ≠ ',' ∧ c ≠ '.' ∧ c.isWhitespace = false)
    (hattr : ∀ c ∈ attr.toList, c ≠ ',' ∧ c.isWhitespace = false)
    (hdotted : String.mk (r.toList ++ '.' :: attr.toList) ∉ m.cls.columns) :
    (∃ d v, to_dict m [r] [] [] = .ok (.obj d) ∧ alookup d r = some v ∧
      _model_to_dict (m.getRel r) [] [] [] = .ok v) ∧
    (∀ v, _model_to_dict (m.getRel r) [attr] [] [] = .ok v →
      ∃ d, to_dict m [String.mk (r.toList ++ '.' :: attr.toList)] [] [] =
        .ok (.obj d) ∧ alookup d r = some v) ∧
    (∀ m2, m.getRel r = .one m2 →
      ∃ o, _model_to_dict (.one m2) [] [] [] = .ok (.obj o)) ∧
    (∀ ms, m.getRel r = .many ms → (∀ mi ∈ ms, mi.cls.columns ≠ []) →
      ∃ a, _model_to_dict (.many ms) [] [] [] = .ok (.arr a) ∧
        ∀ x ∈ a, ∃ o, x = JVal.obj o) := by
  have hnd : ∀ c ∈ r.toList, c ≠ '.' := fun c hc => (hplain c hc).2.1
  refine ⟨?_, ?_, ?_, ?_⟩
  · obtain ⟨v, hv, _, _⟩ := mdict_nil_fields (m.getRel r)
    have hmain := mdict_one_single_rel m r [] [r]
      (m.cls.columns
        ++ m.cls.primaryKeys.filter (fun k => !(m.cls.columns.contains k)))
      (by rw [normalizeFields_single r
            (fun c hc => ⟨(hplain c hc).1, (hplain c hc).2.2⟩)]
          exact mkPlan_single_rel m.cls r hr hrc hnd) v hv
    exact ⟨_, v, hmain, alookup_aset_self _ _ _, hv⟩
  · intro v hv
    have hchars : ∀ c ∈ (String.mk (r.toList ++ '.' :: attr.toList)).toList,
        c ≠ ',' ∧ c.isWhitespace = false := by
      intro c hc
      have : c ∈ r.toList ++ '.' :: attr.toList := hc
      rcases List.mem_append.mp this with h1 | h1
      · exact ⟨(hplain c h1).1, (hplain c h1).2.2⟩
      · rcases List.mem_cons.mp h1 with rfl | h2
        · exact ⟨by decide, by decide⟩
        · exact hattr c h2
    have hmain := mdict_one_single_rel m r [attr]
      [String.mk (r.toList ++ '.' :: attr.toList)]
      (m.cls.columns
        ++ m.cls.primaryKeys.filter (fun k => !(m.cls.columns.contains k)))
      (by rw [normalizeFields_single _ hchars]
          exact mkPlan_dotted_rel m.cls r attr hr hdotted hnd) v hv
    exact ⟨_, hmain, alookup_aset_self _ _ _⟩
  · intro m2 hm2
    obtain ⟨v, hv, hobj, _⟩ := mdict_nil_fields (m.getRel r)
    obtain ⟨o, ho⟩ := hobj ⟨m2, hm2⟩
    rw [hm2] at hv
    subst ho
    exact ⟨o, hv⟩
  · intro ms hms hcols
    obtain ⟨v, hv, _, harr⟩ := mdict_nil_fields (m.getRel r)
    obtain ⟨a, ha, hall⟩ := harr ms hms hcols
    rw [hms] at hv
    subst ha
    exact ⟨a, hv, hall⟩

theorem c6_witness :
    (∃ d v, to_dict user1 ["todos"] [] [] = .ok (.obj d) ∧
      alookup d "todos" = some v ∧
      _model_to_dict (user1.getRel "todos") [] [] [] = .ok v) ∧
    (∀ v, _model_to_dict (user1.getRel "todos") ["title"] [] [] = .ok v →
      ∃ d, to_dict user1
        [String.mk ("todos".toList ++ '.' :: "title".toList)] [] [] =
        .ok (.obj d) ∧ alookup d "todos" = some v) ∧
    (∀ m2, user1.getRel "todos" = .one m2 →
      ∃ o, _model_to_dict (.one m2) [] [] [] = .ok (.obj o)) ∧
    (∀ ms, user1.getRel "todos" = .many ms →
      (∀ mi ∈ ms, mi.cls.columns ≠ []) →
      ∃ a, _model_to_dict (.many ms) [] [] [] = .ok (.arr a) ∧
        ∀ x ∈ a, ∃ o, x = JVal.obj o) :=
  c6_theorem user1 "todos" "title" (by decide) (by decide) (by decide)
    (by decide) (by decide)

/-! Helper lemmas for the hidden-attribute property. -/

theorem alookup_some_mem_keys {α : Type} {l : List (String × α)} {k : String}
    {v : α} (h : alookup l k = some v) : k ∈ l.map Prod.fst := by
  induction l with
  | nil => simp [alookup] at h
  | cons hd tl ih =>
    obtain ⟨a, b⟩ := hd
    simp only [alookup] at h
    by_cases hak : a = k
    · simp [hak]
    · rw [if_neg (by simp [hak])] at h
      simp only [List.map_cons, List.mem_cons]
      exact Or.inr (ih h)

/-- Every key of the built related map names a relationship. -/
theorem buildRelatedMapAux_keys (relations : List String)
    (l : List String) (rm0 rm : List (String × List String))
    (h : buildRelatedMapAux relations l rm0 = .ok rm)
    (hinv : ∀ x ∈ rm0.map Prod.fst, x ∈ relations) :
    ∀ x ∈ rm.map Prod.fst, x ∈ relations := by
  induction l generalizing rm0 with
  | nil =>
    simp only [buildRelatedMapAux, Except.ok.injEq] at h
    subst h
    exact hinv
  | cons k rest ih =>
    simp only [buildRelatedMapAux] at h
    cases hsd : splitDot k with
    | some p =>
      obtain ⟨mdl, attr⟩ := p
      rw [hsd] at h
      simp only at h
      by_cases hcond : (relations.contains mdl && !(containsKey rm0 mdl)) = true
      · rw [if_pos hcond] at h
        cases hl : alookup (rm0 ++ [(mdl, [])]) mdl with
        | none => rw [hl] at h; simp at h
        | some lst =>
          rw [hl] at h
          refine ih _ h ?_
          intro x hx
          rcases mem_keys_aset _ _ _ _ hx with hx2 | hx2
          · rw [List.map_append] at hx2
            rcases List.mem_append.mp hx2 with hx3 | hx3
            · exact hinv x hx3
            · simp only [List.map_cons, List.map_nil, List.mem_singleton] at hx3
              subst hx3
              rw [Bool.and_eq_true] at hcond
              exact List.elem_iff.mp hcond.1
          · subst hx2
            rw [Bool.and_eq_true] at hcond
            exact List.elem_iff.mp hcond.1
      · rw [if_neg hcond] at h
        cases hl : alookup rm0 mdl with
        | none => rw [hl] at h; simp at h
        | some lst =>
          rw [hl] at h
          have hmdl : mdl ∈ relations := hinv mdl (alookup_some_mem_keys hl)
          refine ih _ h ?_
          intro x hx
          rcases mem_keys_aset _ _ _ _ hx with hx2 | hx2
          · exact hinv x hx2
          · subst hx2
            exact hmdl
    | none =>
      rw [hsd] at h
      simp only at h
      by_cases hrk : relations.contains k = true
      · rw [if_pos hrk] at h
        refine ih _ h ?_
        intro x hx
        rcases mem_keys_aset _ _ _ _ hx with hx2 | hx2
        · exact hinv x hx2
        · subst hx2
          exact List.elem_iff.mp hrk
      · rw [if_neg hrk] at h
        exact ih _ h hinv

theorem mkPlan_relatedMap_keys (cls : Model) (fields0 _exclude : List String)
    (plan : DictPlan) (h : mkPlan cls fields0 _exclude = .ok (some plan)) :
    ∀ x ∈ plan.relatedMap.map Prod.fst, x ∈ cls.relations := by
  unfold mkPlan at h
  simp only [] at h
  cases hb : buildRelatedMap cls.relations
      (dedupFirst ((effectiveFields cls fields0).filter
        (fun k => !(cls.columns.contains k)))) with
  | error e => rw [hb] at h; simp at h
  | ok rm =>
    rw [hb] at h
    simp only at h
    split at h
    · simp at h
    · simp only [Except.ok.injEq, Option.some.injEq] at h
      subst h
      exact buildRelatedMapAux_keys _ _ _ _ hb (by simp)

/-- The dict entries produced by the relationship loop carry exactly the
keys of the related map. -/
theorem mdictRels_keys (rm : List (String × List String)) (m : MInst)
    (ps : List (String × JVal)) (h : mdictRels rm m = .ok ps) :
    ps.map Prod.fst = rm.map Prod.fst := by
  induction rm generalizing ps with
  | nil =>
    rw [mdictRels] at h
    simp only [Except.ok.injEq] at h
    subst h
    rfl
  | cons hd tl ih =>
    obtain ⟨k, flds⟩ := hd
    rw [mdictRels] at h
    cases h1 : _model_to_dict (m.getRel k) flds [] [] with
    | error e => rw [h1] at h; simp at h
    | ok v =>
      rw [h1] at h
      cases h2 : mdictRels tl m with
      | error e => rw [h2] at h; simp at h
      | ok ps2 =>
        rw [h2] at h
        simp only [Except.ok.injEq] at h
        subst h
        simp [ih ps2 h2]

/-- The column loop never inserts a hidden key. -/
theorem buildCols_hidden (attrs : List String) (m : MInst) (k : String)
    (hh : m.cls.hidden.contains k = true) :
    alookup (buildCols attrs m) k = Option.none := by
  unfold buildCols
  have step : ∀ (keys : List String) (init : List (String × JVal)),
      alookup init k = Option.none →
      alookup (keys.foldl (fun data k2 =>
        if m.cls.hidden.contains k2 then data
        else aset data k2 (json_value (m.getCol k2))) init) k = Option.none := by
    intro keys
    induction keys with
    | nil => exact fun init h => h
    | cons hd tl ih =>
      intro init hinit
      simp only [List.foldl_cons]
      refine ih _ ?_
      by_cases hhd : m.cls.hidden.contains hd = true
      · rw [if_pos hhd]
        exact hinit
      · rw [if_neg hhd]
        have hne : k ≠ hd := by
          rintro rfl
          exact hhd hh
        rw [alookup_aset_ne _ _ _ _ hne]
        exact hinit
  exact step attrs [] rfl

/-- Folding dict assignments whose keys all differ from k leaves the binding
of k unchanged. -/
theorem foldl_aset_none (ps : List (String × JVal)) (init : List (String × JVal))
    (k : String) (hinit : alookup init k = Option.none)
    (hne : ∀ kv ∈ ps, kv.1 ≠ k) :
    alookup (ps.foldl (fun d kv => aset d kv.1 kv.2) init) k = Option.none := by
  induction ps generalizing init with
  | nil => exact hinit
  | cons hd tl ih =>
    simp only [List.foldl_cons]
    refine ih _ ?_ (fun kv hkv => hne kv (List.mem_cons_of_mem hd hkv))
    rw [alookup_aset_ne _ _ _ _ (fun hh => hne hd (List.mem_cons_self _ _) hh.symm)]
    exact hinit

/-- C9: no hidden column ever appears as a key of the serialized dict, even
when requested explicitly or when it is a primary key; the disjointness
hypothesis is the mapper invariant that relationship keys differ from
column keys. -/
theorem c9_theorem (m : MInst) (fields : List String) (k : String)
    (hh : k ∈ m.cls.hidden) (hc : k ∈ m.cls.columns)
    (hdisj : ∀ x ∈ m.cls.relations, x ∉ m.cls.columns)
    (d : List (String × JVal))
    (hres : to_dict m fields [] [] = .ok (.obj d)) :
    alookup d k = Option.none := by
  unfold to_dict at hres
  rw [_model_to_dict] at hres
  cases hmk : mkPlan m.cls (normalizeFields fields) [] with
  | error e => rw [hmk] at hres; simp at hres
  | ok plan? =>
    rw [hmk] at hres
    cases plan? with
    | none =>
      simp only [Except.ok.injEq, JVal.obj.injEq] at hres
      subst hres
      rfl
    | some plan =>
      simp only at hres
      cases hmd : mdictRels plan.relatedMap m with
      | error e => rw [hmd] at hres; simp at hres
      | ok ps =>
        rw [hmd] at hres
        simp only [Except.ok.injEq, JVal.obj.injEq] at hres
        subst hres
        have hcols : alookup (buildCols plan.modelAttrs m) k = Option.none :=
          buildCols_hidden _ _ _ (List.elem_iff.mpr hh)
        have hkeys : ∀ kv ∈ ps, kv.1 ≠ k := by
          intro kv hkv
          have h1 : kv.1 ∈ ps.map Prod.fst := List.mem_map_of_mem Prod.fst hkv
          rw [mdictRels_keys _ _ _ hmd] at h1
          have h2 : kv.1 ∈ m.cls.relations :=
            mkPlan_relatedMap_keys _ _ _ _ hmk kv.1 h1
          intro hq
          rw [hq] at h2
          exact hdisj k h2 hc
        simp only [applyProps, List.foldl_nil]
        exact foldl_aset_none ps _ k hcols hkeys

theorem c9_witness : alookup [("id", JVal.int 7)] "password" = Option.none :=
  c9_theorem user1 ["password"] "password" (by decide) (by decide) (by decide)
    [("id", JVal.int 7)]
    (by simp [to_dict, _model_to_dict, mkPlan, effectiveFields, buildRelatedMap,
      buildRelatedMapAux, normalizeFields, splitComma, trimChars, splitDot,
      splitDotChars, dedupFirst, mdictRels, buildCols, applyProps, aset,
      alookup, containsKey, userModel, user1, json_value, MInst.cls,
      MInst.getCol, MInst.colAttrs])

theorem c4_witness :
    find_in_batches exTable Option.none (some (-1)) 3 =
      .error (.exception "batch_size must be positive") :=
  c4_theorem exTable Option.none (-1) 3 (by decide)
